import Mathlib

/-!
Verification of the `tophu` multilooking module (`src/tophu/multilook.py` and
`src/tophu/util.py`).

Arrays are modelled shallowly: an N-dimensional array is a shape (list of
extents, one per axis) together with an element-lookup function on
multi-indices.  Row-major (C-order) layout — the layout numpy and dask use —
is fixed by the `flatIdx`/`unflatten` pair that interprets `reshape`.
Python's floor division `//` is `Int.fdiv`, Python's `%` is `Int.fmod`.
Fallible Python code (raising `ValueError`) is modelled with `Except`.
-/

namespace Tophu

/-- An N-dimensional array: a shape together with element lookup by
multi-index.  Lookup is a total function; only values at in-range
multi-indices are meaningful. -/
structure DArray (α : Type) where
  shape : List Nat
  data : List Nat → α

/-- Rank of the array (`arr.ndim` in numpy). -/
def DArray.ndim {α : Type} (a : DArray α) : Nat :=
  a.shape.length

/-- The multi-index `idx` addresses an element of an array of shape `shape`. -/
def inRange (shape idx : List Nat) : Prop :=
  idx.length = shape.length ∧ ∀ p ∈ idx.zip shape, p.1 < p.2

instance (shape idx : List Nat) : Decidable (inRange shape idx) := by
  unfold inRange; infer_instance

/-- Errors raised by the module (Python `ValueError`s, by raise site). -/
inductive MlError where
  | lengthMismatch (provided required : Nat)
  | nlooksTooSmall
  | nlooksExceedsShape
  | interleaveLengthMismatch (len1 len2 : Nat)
  | reshapeSizeMismatch
deriving DecidableEq

/-- The message string carried by each `ValueError`. -/
def MlError.message : MlError → String
  | .lengthMismatch p r =>
      "length mismatch: length of nlooks (" ++ toString p ++
        ") must match input array rank (" ++ toString r ++ ")"
  | .nlooksTooSmall => "number of looks must be >= 1"
  | .nlooksExceedsShape => "number of looks should not exceed array shape"
  | .interleaveLengthMismatch a b =>
      "length mismatch: sequence lengths must be equal, got " ++ toString a ++
        " and " ++ toString b
  | .reshapeSizeMismatch =>
      "cannot reshape array: total size of new array must be unchanged"

/-- The two advisory `RuntimeWarning` categories emitted by `validate_nlooks`. -/
inductive MlWarning where
  | evenNlooks
  | remainderExcluded
deriving DecidableEq

/-- The warning text emitted for each advisory condition. -/
def MlWarning.message : MlWarning → String
  | .evenNlooks =>
      "one or more components of nlooks is even-valued -- this will result in a" ++
        " phase delay in the multilooked data equivalent to a half-bin shift"
  | .remainderExcluded =>
      "input array shape is not an integer multiple of nlooks -- remainder" ++
        " samples will be excluded from output"

/-- From `src/tophu/util.py`: `iseven(n)` is Python's `n % 2 == 0`. -/
def iseven (n : ℤ) : Bool :=
  n.fmod 2 == 0

/-- Wrap an integer to the signed 64-bit two's-complement range, as numpy
int64 arithmetic does on overflow. -/
def wrap64 (x : ℤ) : ℤ :=
  (x + 2 ^ 63) % 2 ^ 64 - 2 ^ 63

/-- From `src/tophu/util.py`: `ceil_divide(n, d)` is `(n + d - np.sign(d)) // d`
where `np.asanyarray` makes the operands numpy int64 scalars, so every
arithmetic step (the addition, the subtraction, and the floor division) is
int64 arithmetic wrapping to the signed 64-bit range on overflow. -/
def ceil_divide (n d : ℤ) : ℤ :=
  wrap64 ((wrap64 (wrap64 (n + d) - d.sign)).fdiv d)

/-- From `src/tophu/util.py`: `interleave(s1, s2)` raises `ValueError` when the
lengths differ, else returns `[val for pair in zip(s1, s2) for val in pair]`. -/
def interleave {α : Type} (s1 s2 : List α) : Except MlError (List α) :=
  if s1.length ≠ s2.length then
    .error (.interleaveLengthMismatch s1.length s2.length)
  else
    .ok ((s1.zip s2).flatMap fun p => [p.1, p.2])

/-- The `IntOrInts` argument type of `multilook`: either a value coercible to a
single int (the `int(nlooks)` branch of `normalize_nlooks_tuple`) or an
iterable of ints. -/
inductive IntOrInts where
  | scalar (n : ℤ)
  | ints (ns : List ℤ)

/-- From `src/tophu/multilook.py`: `normalize_nlooks_tuple(nlooks, ndim)`.
A scalar is repeated `ndim` times; an iterable is converted element-wise and
its length checked against `ndim`. -/
def normalize_nlooks_tuple (nlooks : IntOrInts) (ndim : Nat) :
    Except MlError (List ℤ) :=
  match nlooks with
  | .scalar n => .ok (List.replicate ndim n)
  | .ints ns =>
      if ns.length ≠ ndim then .error (.lengthMismatch ns.length ndim)
      else .ok ns

/-- The per-axis fatal loop of `validate_nlooks`:
`for m, n in zip(arr.shape, nlooks): if n < 1: raise ...; elif n > m: raise ...`. -/
def checkAxes : List (Nat × ℤ) → Except MlError Unit
  | [] => .ok ()
  | (m, n) :: rest =>
      if n < 1 then .error .nlooksTooSmall
      else if n > (m : ℤ) then .error .nlooksExceedsShape
      else checkAxes rest

/-- From `src/tophu/multilook.py`: `validate_nlooks(nlooks, arr)`.  Runs the
fatal per-axis checks, then collects the (up to two) advisory warnings. -/
def validate_nlooks {α : Type} (nlooks : List ℤ) (arr : DArray α) :
    Except MlError (List MlWarning) := do
  checkAxes (arr.shape.zip nlooks)
  let w1 := if nlooks.any iseven then [MlWarning.evenNlooks] else []
  let w2 := if (arr.shape.zip nlooks).any (fun p => (p.1 : ℤ).fmod p.2 != 0)
    then [MlWarning.remainderExcluded] else []
  pure (w1 ++ w2)

/-- Row-major (C-order) flat offset of a multi-index in a given shape. -/
def flatIdx : List Nat → List Nat → Nat
  | _ :: ss, i :: rest => i * ss.prod + flatIdx ss rest
  | _, _ => 0

/-- Row-major (C-order) multi-index of a flat offset in a given shape. -/
def unflatten : List Nat → Nat → List Nat
  | [], _ => []
  | _ :: ss, f => f / ss.prod :: unflatten ss (f % ss.prod)

/-- numpy basic slicing `arr[0:n1, 0:n2, ...]` (the expression
`arr[tuple(slice(n) for n in valid_shape)]`): clips each extent from the
front; element values are unchanged. -/
def crop {α : Type} (a : DArray α) (ns : List Nat) : DArray α :=
  ⟨List.zipWith min ns a.shape, a.data⟩

/-- numpy/dask `reshape` in row-major order; raises when the total size
changes.  An element of the reshaped array is found by flattening its
multi-index in the new shape and unflattening in the old one. -/
def reshape {α : Type} (a : DArray α) (newShape : List Nat) :
    Except MlError (DArray α) :=
  if newShape.prod = a.shape.prod then
    .ok ⟨newShape, fun idx => a.data (unflatten a.shape (flatIdx newShape idx))⟩
  else
    .error .reshapeSizeMismatch

/-- All in-range multi-indices of a shape, in row-major order. -/
def allIndices : List Nat → List (List Nat)
  | [] => [[]]
  | s :: ss => (List.range s).flatMap fun i => (allIndices ss).map (i :: ·)

/-- Keep the elements of a list selected by a Boolean mask. -/
def maskFilter {α : Type} : List Bool → List α → List α
  | true :: bs, x :: xs => x :: maskFilter bs xs
  | false :: bs, _ :: xs => maskFilter bs xs
  | _, _ => []

/-- Rebuild a full multi-index from an index over the kept axes and an index
over the dropped axes, following the mask. -/
def mergeIdx : List Bool → List Nat → List Nat → List Nat
  | true :: bs, x :: xs, ys => x :: mergeIdx bs xs ys
  | false :: bs, xs, y :: ys => y :: mergeIdx bs xs ys
  | _, _, _ => []

/-- numpy/dask `mean` reduction over the given axes: the reduced axes are
removed from the shape, and each output element is the sum of its reduced
box divided by the box's element count. -/
def meanAxes {α : Type} [DivisionRing α] (a : DArray α) (axes : List Nat) :
    DArray α :=
  let keep := (List.range a.shape.length).map fun i => !(axes.contains i)
  let redShape := maskFilter (keep.map (!·)) a.shape
  ⟨maskFilter keep a.shape, fun idx =>
    (((allIndices redShape).map fun r => a.data (mergeIdx keep idx r)).sum) /
      (redShape.prod : α)⟩

/-- The odd axis positions below `ndim`, namely `tuple(np.ogrid[1:ndim:2])`. -/
def oddAxes (ndim : Nat) : List Nat :=
  (List.range ndim).filter fun i => i % 2 == 1

/-- From `src/tophu/multilook.py`: `multilook(arr, nlooks)`.  Normalize and
validate `nlooks`, truncate the remainder samples, reshape to split each axis
into an (output, window) pair, and mean-reduce along every window axis.
Emitted warnings are returned alongside the result.  After validation every
entry of `nlooks` is at least 1, so `Int.toNat` keeps the values. -/
def multilook {α : Type} [DivisionRing α] (arr : DArray α) (nlooks : IntOrInts) :
    Except MlError (List MlWarning × DArray α) := do
  let nl ← normalize_nlooks_tuple nlooks arr.ndim
  let ws ← validate_nlooks nl arr
  let nlN := nl.map Int.toNat
  let out_shape := List.zipWith (· / ·) arr.shape nlN
  let valid_shape := List.zipWith (· * ·) out_shape nlN
  let cropped_arr := crop arr valid_shape
  let tmp_shape ← interleave out_shape nlN
  let reshaped_arr ← reshape cropped_arr tmp_shape
  pure (ws, meanAxes reshaped_arr (oddAxes reshaped_arr.ndim))

/-- Interleaving of two equal-length lists, element by element (specification
counterpart of `interleave`'s successful result). -/
def interleaveList {α : Type} : List α → List α → List α
  | x :: xs, y :: ys => x :: y :: interleaveList xs ys
  | _, _ => []

/-- Spec formalization: the multi-index of the input element at offset `k`
inside the window block at output position `j`, namely `j[i]*nlooks[i]+k[i]`
on each axis. -/
def blockIdx : List Nat → List Nat → List Nat → List Nat
  | j :: js, n :: ns, k :: ks => (j * n + k) :: blockIdx js ns ks
  | _, _, _ => []

/-- Spec formalization: the arithmetic mean of the input block of shape
`nlooks` at output position `j` — the value the spec promises for each
output element of `multilook`. -/
def blockMean {α : Type} [DivisionRing α] (arr : DArray α) (nlooks : List Nat)
    (j : List Nat) : α :=
  ((allIndices nlooks).map fun k => arr.data (blockIdx j nlooks k)).sum /
    (nlooks.prod : α)

/-- Spec formalization (claim C4): the array obtained from a canonical array
`c` by repeating each element `k[i]` times along axis `i`. -/
def tile {α : Type} (c : DArray α) (k : List Nat) : DArray α :=
  ⟨List.zipWith (· * ·) c.shape k, fun idx => c.data (List.zipWith (· / ·) idx k)⟩

/-- The alternating keep-mask `[true, false, true, false, ...]` of length `2*n`,
selecting the even (output) axes of the reshaped array. -/
def altMask : Nat → List Bool
  | 0 => []
  | n + 1 => true :: false :: altMask n

/-- A concrete 4 x 6 rational test array with distinct entries (row-major
enumeration values). -/
def wArr : DArray ℚ :=
  ⟨[4, 6], fun idx => ((flatIdx [4, 6] idx : ℕ) : ℚ)⟩

/-- A concrete length-2 canonical array for the tiling witness. -/
def wCanon : DArray ℚ :=
  ⟨[2], fun idx => ((idx.headD 0 : ℕ) : ℚ)⟩

/-- The empty 1-D array exhibiting the tiling counterexample. -/
def wEmpty : DArray ℚ :=
  ⟨[0], fun _ => (0 : ℚ)⟩

/-! ## Basic lemmas about the list helpers -/

theorem normalize_ok_length (nls : IntOrInts) (ndim : Nat) (nl : List ℤ)
    (h : normalize_nlooks_tuple nls ndim = .ok nl) : nl.length = ndim := by
  cases nls with
  | scalar n =>
    have h' : List.replicate ndim n = nl := by
      simpa [normalize_nlooks_tuple] using h
    rw [← h', List.length_replicate]
  | ints ns =>
    by_cases hln : ns.length = ndim
    · have h' : ns = nl := by
        simpa [normalize_nlooks_tuple, hln] using h
      rw [← h', hln]
    · simp [normalize_nlooks_tuple, hln] at h

theorem except_bind_ok {ε β γ : Type} (a : β) (f : β → Except ε γ) :
    (Except.ok a : Except ε β) >>= f = f a := rfl

theorem zip_flatMap_pair {α : Type} :
    ∀ (s1 s2 : List α), s1.length = s2.length →
      ((s1.zip s2).flatMap fun p => [p.1, p.2]) = interleaveList s1 s2
  | [], [], _ => rfl
  | _ :: xs, _ :: ys, h => by
    simp only [List.zip_cons_cons, List.flatMap_cons, interleaveList]
    rw [zip_flatMap_pair xs ys (by simpa using h)]
    rfl
  | [], _ :: _, h => by simp at h
  | _ :: _, [], h => by simp at h

theorem interleave_eq_interleaveList {α : Type} (s1 s2 : List α)
    (h : s1.length = s2.length) :
    interleave s1 s2 = .ok (interleaveList s1 s2) := by
  unfold interleave
  rw [if_neg (by omega), zip_flatMap_pair s1 s2 h]

theorem interleaveList_length {α : Type} :
    ∀ (s1 s2 : List α), s1.length = s2.length →
      (interleaveList s1 s2).length = 2 * s1.length
  | [], [], _ => rfl
  | _ :: xs, _ :: ys, h => by
    simp only [interleaveList, List.length_cons]
    rw [interleaveList_length xs ys (by simpa using h)]
    omega
  | [], _ :: _, h => by simp at h
  | _ :: _, [], h => by simp at h

theorem interleaveList_prod :
    ∀ (s1 s2 : List Nat), s1.length = s2.length →
      (interleaveList s1 s2).prod = (List.zipWith (· * ·) s1 s2).prod
  | [], [], _ => rfl
  | _ :: xs, _ :: ys, h => by
    simp only [interleaveList, List.prod_cons, List.zipWith_cons_cons]
    rw [interleaveList_prod xs ys (by simpa using h)]
    ring
  | [], _ :: _, h => by simp at h
  | _ :: _, [], h => by simp at h

theorem interleaveList_zip_lt :
    ∀ (j k o n : List Nat), j.length = o.length → k.length = n.length →
      (∀ p ∈ j.zip o, p.1 < p.2) → (∀ p ∈ k.zip n, p.1 < p.2) →
      ∀ p ∈ (interleaveList j k).zip (interleaveList o n), p.1 < p.2
  | [], _, _, _, _, _, _, _ => by simp [interleaveList]
  | _ :: _, [], _, _, _, _, _, _ => by simp [interleaveList]
  | _ :: _, _ :: _, [], _, hjo, _, _, _ => by simp at hjo
  | _ :: _, _ :: _, _ :: _, [], _, hkn, _, _ => by simp at hkn
  | j1 :: js, k1 :: ks, o1 :: os, n1 :: ns, hjo, hkn, hj, hk => by
    intro p hp
    simp only [interleaveList, List.zip_cons_cons, List.mem_cons] at hp
    rcases hp with rfl | rfl | hp
    · exact hj (j1, o1) (by simp)
    · exact hk (k1, n1) (by simp)
    · exact interleaveList_zip_lt js ks os ns (by simpa using hjo)
        (by simpa using hkn) (fun q hq => hj q (by simp [hq]))
        (fun q hq => hk q (by simp [hq])) p hp

theorem flatIdx_lt :
    ∀ (s idx : List Nat), idx.length = s.length →
      (∀ p ∈ idx.zip s, p.1 < p.2) → flatIdx s idx < s.prod
  | [], [], _, _ => by simp [flatIdx]
  | s :: ss, i :: rest, h, hin => by
    simp only [flatIdx, List.prod_cons]
    have h1 : i < s := hin (i, s) (by simp)
    have h2 : flatIdx ss rest < ss.prod :=
      flatIdx_lt ss rest (by simpa using h) (fun p hp => hin p (by simp [hp]))
    calc i * ss.prod + flatIdx ss rest < (i + 1) * ss.prod := by
          rw [Nat.add_mul, Nat.one_mul]; omega
      _ ≤ s * ss.prod := Nat.mul_le_mul_right _ h1
  | [], _ :: _, h, _ => by simp at h
  | _ :: _, [], h, _ => by simp at h

theorem unflatten_flatIdx :
    ∀ (o n j k : List Nat), o.length = n.length → j.length = o.length →
      k.length = n.length →
      (∀ p ∈ j.zip o, p.1 < p.2) → (∀ p ∈ k.zip n, p.1 < p.2) →
      unflatten (List.zipWith (· * ·) o n)
        (flatIdx (interleaveList o n) (interleaveList j k)) = blockIdx j n k
  | [], [], j, k, _, hjo, hkn, _, _ => by
    simp only [List.length_nil, List.length_eq_zero] at hjo hkn
    subst hjo; subst hkn; rfl
  | [], _ :: _, _, _, hon, _, _, _, _ => by simp at hon
  | _ :: _, [], _, _, hon, _, _, _, _ => by simp at hon
  | o1 :: os, n1 :: ns, j, k, hon, hjo, hkn, hj, hk => by
    rcases j with _ | ⟨j1, js⟩
    · simp at hjo
    rcases k with _ | ⟨k1, ks⟩
    · simp at hkn
    have hon' : os.length = ns.length := by simpa using hon
    have hjo' : js.length = os.length := by simpa using hjo
    have hkn' : ks.length = ns.length := by simpa using hkn
    have hj' : ∀ p ∈ js.zip os, p.1 < p.2 := fun p hp => hj p (by simp [hp])
    have hk' : ∀ p ∈ ks.zip ns, p.1 < p.2 := fun p hp => hk p (by simp [hp])
    have hprod : (interleaveList os ns).prod = (List.zipWith (· * ·) os ns).prod :=
      interleaveList_prod os ns hon'
    have hr : flatIdx (interleaveList os ns) (interleaveList js ks) <
        (interleaveList os ns).prod := by
      apply flatIdx_lt
      · rw [interleaveList_length js ks (by omega), interleaveList_length os ns hon',
          hjo']
      · exact interleaveList_zip_lt js ks os ns hjo' hkn' hj' hk'
    rw [hprod] at hr
    set P := (List.zipWith (· * ·) os ns).prod with hP
    set r := flatIdx (interleaveList os ns) (interleaveList js ks) with hrdef
    have hPpos : 0 < P := Nat.lt_of_le_of_lt (Nat.zero_le r) hr
    simp only [interleaveList, List.zipWith_cons_cons, flatIdx, unflatten,
      List.prod_cons, blockIdx]
    rw [← hrdef, hprod, ← hP]
    have harith : j1 * (n1 * P) + (k1 * P + r) = r + (j1 * n1 + k1) * P := by ring
    rw [harith, Nat.add_mul_div_right _ _ hPpos, Nat.div_eq_of_lt hr,
      Nat.add_mul_mod_self_right, Nat.mod_eq_of_lt hr, Nat.zero_add]
    rw [unflatten_flatIdx os ns js ks hon' hjo' hkn' hj' hk']

theorem mem_allIndices :
    ∀ (s k : List Nat),
      k ∈ allIndices s ↔ k.length = s.length ∧ ∀ p ∈ k.zip s, p.1 < p.2
  | [], k => by
    constructor
    · intro h
      simp only [allIndices, List.mem_singleton] at h
      subst h; simp
    · intro ⟨h, _⟩
      rw [List.length_nil, List.length_eq_zero] at h
      subst h; simp [allIndices]
  | s :: ss, k => by
    simp only [allIndices, List.mem_flatMap, List.mem_map, List.mem_range]
    constructor
    · rintro ⟨i, hi, t, ht, rfl⟩
      obtain ⟨hlen, hin⟩ := (mem_allIndices ss t).1 ht
      refine ⟨by simp [hlen], ?_⟩
      intro p hp
      rw [List.zip_cons_cons, List.mem_cons] at hp
      rcases hp with rfl | hp
      · exact hi
      · exact hin p hp
    · intro ⟨hlen, hin⟩
      cases k with
      | nil => simp at hlen
      | cons i t =>
        refine ⟨i, hin (i, s) (by simp), t,
          (mem_allIndices ss t).2 ⟨by simpa using hlen, ?_⟩, rfl⟩
        intro p hp
        exact hin p (by simp [hp])

theorem length_allIndices : ∀ (s : List Nat), (allIndices s).length = s.prod
  | [] => rfl
  | s :: ss => by
    simp only [allIndices, List.length_flatMap, List.prod_cons]
    have hmap : List.map (List.length ∘ fun i : ℕ =>
          List.map (fun x => i :: x) (allIndices ss)) (List.range s)
        = List.map (fun _ : ℕ => (allIndices ss).length) (List.range s) := by
      apply List.map_congr_left
      intro a _
      simp
    rw [hmap, List.map_const', List.sum_const_nat, List.length_range,
      length_allIndices ss]

/-! ## The keep-mask of the mean reduction over the odd axes -/

theorem altMask_append (n : Nat) : altMask (n + 1) = altMask n ++ [true, false] := by
  induction n with
  | zero => rfl
  | succ m ih =>
    show true :: false :: altMask (m + 1) = (true :: false :: altMask m) ++ [true, false]
    rw [ih]
    rfl

theorem range_two_mul_parity (n : Nat) :
    (List.range (2 * n)).map (fun i => decide (i % 2 = 0)) = altMask n := by
  induction n with
  | zero => rfl
  | succ m ih =>
    have h2 : 2 * (m + 1) = 2 * m + 1 + 1 := by ring
    rw [h2, List.range_succ, List.range_succ, List.map_append, List.map_append, ih,
      altMask_append]
    have e1 : 2 * m % 2 = 0 := by omega
    have e2 : (2 * m + 1) % 2 = 1 := by omega
    simp [e1, e2]

theorem contains_oddAxes (m i : Nat) (hi : i < m) :
    (oddAxes m).contains i = decide (i % 2 = 1) := by
  have h1 : (oddAxes m).contains i = true ↔ i % 2 = 1 := by
    rw [List.contains, List.elem_iff]
    simp [oddAxes, List.mem_filter, List.mem_range, hi]
  by_cases h : i % 2 = 1
  · rw [h1.2 h]
    simp [h]
  · have hc : (oddAxes m).contains i = false := by
      rcases Bool.eq_false_or_eq_true ((oddAxes m).contains i) with ht | hf
      · exact absurd (h1.1 ht) h
      · exact hf
    rw [hc]
    simp [h]

theorem keepMask_eq_altMask (n : Nat) :
    ((List.range (2 * n)).map fun i => !((oddAxes (2 * n)).contains i))
      = altMask n := by
  rw [← range_two_mul_parity n]
  apply List.map_congr_left
  intro i hi
  rw [List.mem_range] at hi
  rw [contains_oddAxes (2 * n) i hi]
  by_cases h : i % 2 = 0
  · have h' : ¬ i % 2 = 1 := by omega
    simp [h, h']
  · have h' : i % 2 = 1 := by omega
    simp [h, h']

theorem maskFilter_altMask_even {α : Type} :
    ∀ (o n : List α), o.length = n.length →
      maskFilter (altMask o.length) (interleaveList o n) = o
  | [], [], _ => rfl
  | x :: xs, _ :: ys, h => by
    simp only [List.length_cons, altMask, interleaveList, maskFilter]
    rw [maskFilter_altMask_even xs ys (by simpa using h)]
  | [], _ :: _, h => by simp at h
  | _ :: _, [], h => by simp at h

theorem maskFilter_altMask_odd {α : Type} :
    ∀ (o n : List α), o.length = n.length →
      maskFilter ((altMask o.length).map (!·)) (interleaveList o n) = n
  | [], [], _ => rfl
  | x :: xs, y :: ys, h => by
    simp only [List.length_cons, altMask, interleaveList, List.map_cons,
      Bool.not_true, Bool.not_false, maskFilter]
    rw [maskFilter_altMask_odd xs ys (by simpa using h)]
  | [], _ :: _, h => by simp at h
  | _ :: _, [], h => by simp at h

theorem mergeIdx_altMask :
    ∀ (j k : List Nat), j.length = k.length →
      mergeIdx (altMask j.length) j k = interleaveList j k
  | [], [], _ => rfl
  | x :: xs, y :: ys, h => by
    simp only [List.length_cons, altMask, mergeIdx, interleaveList]
    rw [mergeIdx_altMask xs ys (by simpa using h)]
  | [], _ :: _, h => by simp at h
  | _ :: _, [], h => by simp at h

theorem meanAxes_interleaved {α : Type} [DivisionRing α] (a : DArray α)
    (o n : List Nat) (hshape : a.shape = interleaveList o n)
    (hon : o.length = n.length) :
    (meanAxes a (oddAxes a.ndim)).shape = o ∧
    ∀ j, j.length = o.length →
      (meanAxes a (oddAxes a.ndim)).data j
        = ((allIndices n).map fun k => a.data (interleaveList j k)).sum /
          (n.prod : α) := by
  have hlen : a.shape.length = 2 * o.length := by
    rw [hshape, interleaveList_length o n hon]
  have hndim : a.ndim = 2 * o.length := hlen
  have hkeep : ((List.range a.shape.length).map
      fun i => !((oddAxes a.ndim).contains i)) = altMask o.length := by
    rw [hndim, hlen]
    exact keepMask_eq_altMask o.length
  have hred : maskFilter ((altMask o.length).map (!·)) a.shape = n := by
    rw [hshape, maskFilter_altMask_odd o n hon]
  constructor
  · show maskFilter _ a.shape = o
    rw [hkeep, hshape, maskFilter_altMask_even o n hon]
  · intro j hj
    show (((allIndices (maskFilter (((List.range a.shape.length).map
        fun i => !((oddAxes a.ndim).contains i)).map (!·)) a.shape)).map
          fun r => a.data (mergeIdx ((List.range a.shape.length).map
            fun i => !((oddAxes a.ndim).contains i)) j r)).sum) / _ = _
    rw [hkeep, hred]
    congr 1
    apply congrArg List.sum
    apply List.map_congr_left
    intro r hr
    obtain ⟨hrlen, _⟩ := (mem_allIndices n r).1 hr
    have hjr : j.length = r.length := by omega
    rw [← hj, mergeIdx_altMask j r hjr]

/-! ## Validation lemmas -/

theorem checkAxes_ok_iff :
    ∀ (ps : List (Nat × ℤ)),
      checkAxes ps = .ok () ↔ ∀ p ∈ ps, 1 ≤ p.2 ∧ p.2 ≤ (p.1 : ℤ)
  | [] => by simp [checkAxes]
  | (m, n) :: rest => by
    simp only [checkAxes]
    by_cases h1 : n < 1
    · rw [if_pos h1]
      constructor
      · intro h
        exact absurd h (by simp)
      · intro h
        have := (h (m, n) (by simp)).1
        omega
    · rw [if_neg h1]
      by_cases h2 : n > (m : ℤ)
      · rw [if_pos h2]
        constructor
        · intro h
          exact absurd h (by simp)
        · intro h
          have := (h (m, n) (by simp)).2
          omega
      · rw [if_neg h2, checkAxes_ok_iff rest]
        constructor
        · intro h p hp
          rcases List.mem_cons.mp hp with rfl | hp
          · constructor <;> omega
          · exact h p hp
        · intro h p hp
          exact h p (by simp [hp])

theorem checkAxes_first_error :
    ∀ (pre : List (Nat × ℤ)) (m : Nat) (n : ℤ) (post : List (Nat × ℤ)),
      (∀ p ∈ pre, 1 ≤ p.2 ∧ p.2 ≤ (p.1 : ℤ)) → (n < 1 ∨ (m : ℤ) < n) →
      checkAxes (pre ++ (m, n) :: post)
        = .error (if n < 1 then .nlooksTooSmall else .nlooksExceedsShape)
  | [], m, n, post, _, hbad => by
    simp only [List.nil_append, checkAxes]
    by_cases h1 : n < 1
    · rw [if_pos h1, if_pos h1]
    · rw [if_neg h1, if_neg h1, if_pos (by omega)]
  | (m0, n0) :: pre, m, n, post, hpre, hbad => by
    simp only [List.cons_append, checkAxes]
    have h := hpre (m0, n0) (by simp)
    rw [if_neg (by omega), if_neg (by omega)]
    exact checkAxes_first_error pre m n post (fun p hp => hpre p (by simp [hp])) hbad

theorem validate_nlooks_def {α : Type} (nlooks : List ℤ) (arr : DArray α) :
    validate_nlooks nlooks arr =
      (checkAxes (arr.shape.zip nlooks)).bind fun _ =>
        .ok ((if nlooks.any iseven then [MlWarning.evenNlooks] else []) ++
          (if (arr.shape.zip nlooks).any (fun p => (p.1 : ℤ).fmod p.2 != 0)
            then [MlWarning.remainderExcluded] else [])) := rfl

theorem validate_nlooks_of_checkAxes_ok {α : Type} (nlooks : List ℤ)
    (arr : DArray α) (h : checkAxes (arr.shape.zip nlooks) = .ok ()) :
    validate_nlooks nlooks arr =
      .ok ((if nlooks.any iseven then [MlWarning.evenNlooks] else []) ++
        (if (arr.shape.zip nlooks).any (fun p => (p.1 : ℤ).fmod p.2 != 0)
          then [MlWarning.remainderExcluded] else [])) := by
  rw [validate_nlooks_def, h]
  rfl

theorem validate_nlooks_of_checkAxes_error {α : Type} (nlooks : List ℤ)
    (arr : DArray α) (e : MlError)
    (h : checkAxes (arr.shape.zip nlooks) = .error e) :
    validate_nlooks nlooks arr = .error e := by
  rw [validate_nlooks_def, h]
  rfl

theorem validate_nlooks_ok_checkAxes {α : Type} (nlooks : List ℤ)
    (arr : DArray α) (ws : List MlWarning)
    (h : validate_nlooks nlooks arr = .ok ws) :
    checkAxes (arr.shape.zip nlooks) = .ok () := by
  rw [validate_nlooks_def] at h
  cases hc : checkAxes (arr.shape.zip nlooks) with
  | ok u => cases u; rfl
  | error e =>
    rw [hc] at h
    exact absurd h (by simp [Except.bind])

/-! ## The main specification of a successful multilook call -/

theorem zipWith_min_valid :
    ∀ (s nl : List Nat),
      List.zipWith min
          (List.zipWith (· * ·) (List.zipWith (· / ·) s nl) nl) s
        = List.zipWith (· * ·) (List.zipWith (· / ·) s nl) nl
  | [], _ => by simp
  | _ :: _, [] => by simp
  | m :: s, n :: nl => by
    simp only [List.zipWith_cons_cons]
    rw [zipWith_min_valid s nl, Nat.min_eq_left (Nat.div_mul_le_self m n)]

theorem multilook_ok_spec {α : Type} [DivisionRing α] (arr : DArray α)
    (nls : IntOrInts) (nl : List ℤ) (ws : List MlWarning)
    (hnorm : normalize_nlooks_tuple nls arr.ndim = .ok nl)
    (hval : validate_nlooks nl arr = .ok ws) :
    ∃ out : DArray α,
      multilook arr nls = .ok (ws, out) ∧
      out.shape = List.zipWith (· / ·) arr.shape (nl.map Int.toNat) ∧
      ∀ j, inRange out.shape j →
        out.data j = blockMean arr (nl.map Int.toNat) j := by
  have hlen : nl.length = arr.ndim := normalize_ok_length nls arr.ndim nl hnorm
  set nlN := nl.map Int.toNat with hnlN
  have hlenN : nlN.length = arr.shape.length := by
    rw [hnlN, List.length_map]
    exact hlen
  set o := List.zipWith (· / ·) arr.shape nlN with ho
  set v := List.zipWith (· * ·) o nlN with hv
  have hoLen : o.length = arr.shape.length := by
    rw [ho, List.length_zipWith, hlenN, Nat.min_self]
  have hvLen : v.length = arr.shape.length := by
    rw [hv, List.length_zipWith, hoLen, hlenN, Nat.min_self]
  have hcropshape : (crop arr v).shape = v := by
    show List.zipWith min v arr.shape = v
    rw [hv, ho]
    exact zipWith_min_valid arr.shape nlN
  have hil : interleave o nlN = .ok (interleaveList o nlN) :=
    interleave_eq_interleaveList o nlN (by omega)
  have hprodIl : (interleaveList o nlN).prod = v.prod := by
    rw [hv]
    exact interleaveList_prod o nlN (by omega)
  set R : DArray α :=
    ⟨interleaveList o nlN,
      fun idx => arr.data (unflatten v (flatIdx (interleaveList o nlN) idx))⟩
    with hR
  have hrs : reshape (crop arr v) (interleaveList o nlN) = .ok R := by
    unfold reshape
    rw [hcropshape, if_pos hprodIl]
    rfl
  have hml : multilook arr nls = .ok (ws, meanAxes R (oddAxes R.ndim)) := by
    show (normalize_nlooks_tuple nls arr.ndim) >>= _ = _
    rw [hnorm, except_bind_ok]
    show (validate_nlooks nl arr) >>= _ = _
    rw [hval, except_bind_ok]
    show (interleave o nlN) >>= _ = _
    rw [hil, except_bind_ok]
    show (reshape (crop arr v) (interleaveList o nlN)) >>= _ = _
    rw [hrs, except_bind_ok]
    rfl
  have hRshape : R.shape = interleaveList o nlN := rfl
  have hon : o.length = nlN.length := by omega
  obtain ⟨hmean_shape, hmean_data⟩ := meanAxes_interleaved R o nlN hRshape hon
  refine ⟨meanAxes R (oddAxes R.ndim), hml, by rw [hmean_shape, ho], ?_⟩
  intro j hj
  rw [hmean_shape] at hj
  obtain ⟨hjlen, hjin⟩ := hj
  rw [hmean_data j hjlen, blockMean]
  congr 1
  apply congrArg List.sum
  apply List.map_congr_left
  intro k hk
  obtain ⟨hklen, hkin⟩ := (mem_allIndices nlN k).1 hk
  show arr.data (unflatten v (flatIdx (interleaveList o nlN) (interleaveList j k))) = _
  rw [hv, unflatten_flatIdx o nlN j k hon hjlen hklen hjin hkin]

/-! ## Ceiling division -/

theorem fdiv_neg_neg : ∀ (a b : ℤ), (-a).fdiv (-b) = a.fdiv b
  | .ofNat 0, b => by
    show Int.fdiv (-(0 : ℤ)) (-b) = Int.fdiv (0 : ℤ) b
    rw [neg_zero, Int.zero_fdiv, Int.zero_fdiv]
  | .ofNat (_ + 1), .ofNat 0 => by
    show (0 : ℤ) = Int.fdiv (Int.ofNat _) (Int.ofNat 0)
    simp [Int.fdiv]
  | .ofNat (_ + 1), .ofNat (_ + 1) => rfl
  | .ofNat (_ + 1), .negSucc _ => rfl
  | .negSucc m, .ofNat 0 => by
    show Int.fdiv (Int.ofNat (m + 1)) (Int.ofNat 0) = (0 : ℤ)
    simp [Int.fdiv]
  | .negSucc _, .ofNat (_ + 1) => rfl
  | .negSucc _, .negSucc _ => rfl

theorem fdiv_ceil_pos (n d : ℤ) (hd : 0 < d) :
    (n + d - 1).fdiv d = ⌈(n : ℚ) / (d : ℚ)⌉ := by
  rw [Int.fdiv_eq_ediv _ (by omega)]
  symm
  rw [Int.ceil_eq_iff]
  set q := (n + d - 1) / d with hq
  have hrnn := Int.emod_nonneg (n + d - 1) (by omega : d ≠ 0)
  have hrlt := Int.emod_lt_of_pos (n + d - 1) hd
  have hqe : d * q + (n + d - 1) % d = n + d - 1 := Int.ediv_add_emod _ _
  set r := (n + d - 1) % d with hr
  have hdQ : (0 : ℚ) < (d : ℚ) := by exact_mod_cast hd
  have key1 : (q - 1) * d < n := by nlinarith
  have key2 : n ≤ q * d := by nlinarith
  constructor
  · rw [lt_div_iff₀ hdQ]
    exact_mod_cast key1
  · rw [div_le_iff₀ hdQ]
    exact_mod_cast key2

theorem wrap64_eq_self (x : ℤ) (h1 : -(2 ^ 63) ≤ x) (h2 : x < 2 ^ 63) :
    wrap64 x = x := by
  have e1 : (2 : ℤ) ^ 63 = 9223372036854775808 := by norm_num
  have e2 : (2 : ℤ) ^ 64 = 18446744073709551616 := by norm_num
  unfold wrap64
  rw [e1, e2]
  rw [e1] at h1 h2
  omega

theorem wrap64_sub_wrap64 (a b : ℤ) : wrap64 (wrap64 a - b) = wrap64 (a - b) := by
  have e1 : (2 : ℤ) ^ 63 = 9223372036854775808 := by norm_num
  have e2 : (2 : ℤ) ^ 64 = 18446744073709551616 := by norm_num
  unfold wrap64
  rw [e1, e2]
  omega

theorem fdiv_ceil_sign (n d : ℤ) (hd : d ≠ 0) :
    (n + d - d.sign).fdiv d = ⌈(n : ℚ) / (d : ℚ)⌉ := by
  rcases lt_or_gt_of_ne hd with hneg | hpos
  · have hs : d.sign = -1 := Int.sign_eq_neg_one_of_neg hneg
    have h1 : n + d - d.sign = n + d + 1 := by
      rw [hs]
      ring
    rw [h1, ← fdiv_neg_neg (n + d + 1) d]
    have h2 : (-(n + d + 1)) = (-n) + (-d) - 1 := by ring
    rw [h2, fdiv_ceil_pos (-n) (-d) (by omega)]
    congr 1
    push_cast
    rw [neg_div_neg_eq]
  · have hs : d.sign = 1 := Int.sign_eq_one_of_pos hpos
    rw [hs, fdiv_ceil_pos n d hpos]

/-! ## Block geometry helpers -/

theorem blockIdx_inRange :
    ∀ (j o n k : List Nat), j.length = o.length → k.length = n.length →
      o.length = n.length →
      (∀ p ∈ j.zip o, p.1 < p.2) → (∀ p ∈ k.zip n, p.1 < p.2) →
      inRange (List.zipWith (· * ·) o n) (blockIdx j n k)
  | [], o, n, k, hjo, hkn, hon, _, _ => by
    have ho : o = [] := List.length_eq_zero.mp (by simpa using hjo.symm)
    subst ho
    have hn : n = [] := List.length_eq_zero.mp (by simpa using hon.symm)
    subst hn
    have hkk : k = [] := List.length_eq_zero.mp (by simpa using hkn)
    subst hkk
    exact ⟨rfl, by simp⟩
  | j1 :: js, o, n, k, hjo, hkn, hon, hj, hk => by
    rcases o with _ | ⟨o1, os⟩
    · simp at hjo
    rcases n with _ | ⟨n1, ns⟩
    · simp at hon
    rcases k with _ | ⟨k1, ks⟩
    · simp at hkn
    obtain ⟨ihlen, ihin⟩ := blockIdx_inRange js os ns ks (by simpa using hjo)
      (by simpa using hkn) (by simpa using hon)
      (fun p hp => hj p (by simp [hp])) (fun p hp => hk p (by simp [hp]))
    constructor
    · simp only [blockIdx, List.zipWith_cons_cons, List.length_cons, ihlen]
    · intro p hp
      simp only [blockIdx, List.zipWith_cons_cons, List.zip_cons_cons,
        List.mem_cons] at hp
      rcases hp with rfl | hp
      · have h1 : j1 < o1 := hj (j1, o1) (by simp)
        have h2 : k1 < n1 := hk (k1, n1) (by simp)
        show j1 * n1 + k1 < o1 * n1
        calc j1 * n1 + k1 < (j1 + 1) * n1 := by
              rw [Nat.add_mul, Nat.one_mul]
              omega
          _ ≤ o1 * n1 := Nat.mul_le_mul_right _ h1
      · exact ihin p hp

theorem zipWith_div_mul_le :
    ∀ (s nlN : List Nat),
      ∀ p ∈ (List.zipWith (· * ·) (List.zipWith (· / ·) s nlN) nlN).zip s,
        p.1 ≤ p.2
  | [], _ => by simp
  | _ :: _, [] => by simp
  | m :: s, n :: nlN => by
    intro p hp
    simp only [List.zipWith_cons_cons, List.zip_cons_cons, List.mem_cons] at hp
    rcases hp with rfl | hp
    · exact Nat.div_mul_le_self m n
    · exact zipWith_div_mul_le s nlN p hp

theorem inRange_mono :
    ∀ (s t idx : List Nat), s.length = t.length →
      (∀ p ∈ s.zip t, p.1 ≤ p.2) → inRange s idx → inRange t idx
  | [], t, idx, hst, _, h => by
    have ht : t = [] := List.length_eq_zero.mp (by simpa using hst.symm)
    subst ht
    exact h
  | s1 :: ss, t, idx, hst, hle, h => by
    rcases t with _ | ⟨t1, ts⟩
    · simp at hst
    rcases idx with _ | ⟨i, is'⟩
    · exact absurd h.1 (by simp)
    obtain ⟨hl, hin⟩ := h
    obtain ⟨ihl, ihin⟩ := inRange_mono ss ts is' (by simpa using hst)
      (fun p hp => hle p (by simp [hp]))
      ⟨by simpa using hl, fun p hp => hin p (by simp [hp])⟩
    constructor
    · simpa using ihl
    · intro p hp
      simp only [List.zip_cons_cons, List.mem_cons] at hp
      rcases hp with rfl | hp
      · have h1 : i < s1 := hin (i, s1) (by simp)
        have h2 : s1 ≤ t1 := hle (s1, t1) (by simp)
        show i < t1
        omega
      · exact ihin p hp

theorem blockMean_congr {α : Type} [DivisionRing α] (a b : DArray α)
    (nlN : List Nat) (j : List Nat)
    (hd : ∀ idx, inRange a.shape idx → a.data idx = b.data idx)
    (hidx : ∀ k ∈ allIndices nlN, inRange a.shape (blockIdx j nlN k)) :
    blockMean a nlN j = blockMean b nlN j := by
  unfold blockMean
  congr 1
  apply congrArg List.sum
  apply List.map_congr_left
  intro k hk
  exact hd _ (hidx k hk)

theorem zipWith_mul_div_cancel :
    ∀ (s kk : List Nat), s.length = kk.length → (∀ x ∈ kk, 1 ≤ x) →
      List.zipWith (· / ·) (List.zipWith (· * ·) s kk) kk = s
  | [], kk, h, _ => by
    have hkk : kk = [] := List.length_eq_zero.mp (by simpa using h.symm)
    subst hkk
    simp
  | m :: s, kk, h, hk => by
    rcases kk with _ | ⟨k1, ks⟩
    · simp at h
    simp only [List.zipWith_cons_cons]
    rw [zipWith_mul_div_cancel s ks (by simpa using h)
        (fun x hx => hk x (by simp [hx])),
      Nat.mul_div_cancel _ (hk k1 (by simp))]

theorem blockIdx_div :
    ∀ (j kk r : List Nat), j.length = kk.length → r.length = kk.length →
      (∀ x ∈ kk, 1 ≤ x) → (∀ p ∈ r.zip kk, p.1 < p.2) →
      List.zipWith (· / ·) (blockIdx j kk r) kk = j
  | [], kk, r, hjk, _, _, _ => by
    have hkk : kk = [] := List.length_eq_zero.mp (by simpa using hjk.symm)
    subst hkk
    simp [blockIdx]
  | j1 :: js, kk, r, hjk, hrk, hk, hr => by
    rcases kk with _ | ⟨k1, ks⟩
    · simp at hjk
    rcases r with _ | ⟨r1, rs⟩
    · simp at hrk
    simp only [blockIdx, List.zipWith_cons_cons]
    have hk1 : 0 < k1 := hk k1 (by simp)
    have hr1 : r1 < k1 := hr (r1, k1) (by simp)
    rw [blockIdx_div js ks rs (by simpa using hjk) (by simpa using hrk)
      (fun x hx => hk x (by simp [hx])) (fun p hp => hr p (by simp [hp]))]
    rw [Nat.mul_comm j1 k1, Nat.mul_add_div hk1, Nat.div_eq_of_lt hr1,
      Nat.add_zero]

theorem checkAxes_tile :
    ∀ (s kk : List Nat), (∀ x ∈ kk, 1 ≤ x) → (∀ m ∈ s, 1 ≤ m) →
      ∀ p ∈ ((List.zipWith (· * ·) s kk : List Nat)).zip (kk.map (Int.ofNat)),
        1 ≤ p.2 ∧ p.2 ≤ (p.1 : ℤ)
  | [], _, _, _ => by simp
  | _ :: _, [], _, _ => by simp
  | m :: s, k1 :: kk, hk, hm => by
    intro p hp
    simp only [List.zipWith_cons_cons, List.map_cons, List.zip_cons_cons,
      List.mem_cons] at hp
    rcases hp with rfl | hp
    · have h1 : 1 ≤ k1 := hk k1 (by simp)
      have h2 : 1 ≤ m := hm m (by simp)
      have h3 : k1 ≤ m * k1 := Nat.le_mul_of_pos_left k1 h2
      constructor
      · show (1 : ℤ) ≤ Int.ofNat k1
        rw [Int.ofNat_eq_natCast]
        exact_mod_cast h1
      · show Int.ofNat k1 ≤ ((m * k1 : ℕ) : ℤ)
        rw [Int.ofNat_eq_natCast]
        exact_mod_cast h3
    · exact checkAxes_tile s kk (fun x hx => hk x (by simp [hx]))
        (fun x hx => hm x (by simp [hx])) p hp

/-! ## Claim theorems -/

/-- C10 counterexample: the original for-every-integer claim fails on the
program because numpy int64 addition wraps.  At n = 2^63 - 1 and d = 2 the
sum n + d overflows, and `ceil_divide` returns -4611686018427387904 rather
than the true ceiling 4611686018427387904 = ceil((2^63 - 1) / 2). -/
theorem c10_counterexample :
    ceil_divide (2 ^ 63 - 1) 2 = -4611686018427387904 ∧
      ceil_divide (2 ^ 63 - 1) 2
        ≠ ⌈((2 ^ 63 - 1 : ℤ) : ℚ) / ((2 : ℤ) : ℚ)⌉ := by
  constructor
  · decide
  · rw [← fdiv_ceil_pos (2 ^ 63 - 1) 2 (by norm_num)]
    decide

/-- C10 (amended): for every int64-representable n and nonzero
int64-representable d such that no arithmetic step overflows — the
intermediate value n + d - sign(d) and the floor quotient
(n + d - sign(d)) // d both lie in the signed 64-bit range —
`util.ceil_divide(n, d)` equals the mathematical ceiling of the exact
rational quotient n / d, negative divisors included. -/
theorem c10_ceil_divide_correct (n d : ℤ) (hd : d ≠ 0)
    (hn1 : -(2 ^ 63) ≤ n) (hn2 : n < 2 ^ 63)
    (hd1 : -(2 ^ 63) ≤ d) (hd2 : d < 2 ^ 63)
    (hi1 : -(2 ^ 63) ≤ n + d - d.sign) (hi2 : n + d - d.sign < 2 ^ 63)
    (hq1 : -(2 ^ 63) ≤ (n + d - d.sign).fdiv d)
    (hq2 : (n + d - d.sign).fdiv d < 2 ^ 63) :
    ceil_divide n d = ⌈(n : ℚ) / (d : ℚ)⌉ := by
  unfold ceil_divide
  rw [wrap64_sub_wrap64, wrap64_eq_self _ hi1 hi2, wrap64_eq_self _ hq1 hq2]
  exact fdiv_ceil_sign n d hd

/-- Witness for the amended C10 at n = 7, d = -2 (every step stays in the
int64 range and ceil(7 / -2) = -3). -/
theorem c10_witness :
    ((-2 : ℤ) ≠ 0) ∧
    (-(2 ^ 63) ≤ (7 : ℤ)) ∧ ((7 : ℤ) < 2 ^ 63) ∧
    (-(2 ^ 63) ≤ (-2 : ℤ)) ∧ ((-2 : ℤ) < 2 ^ 63) ∧
    (-(2 ^ 63) ≤ (7 : ℤ) + (-2) - (-2 : ℤ).sign) ∧
    ((7 : ℤ) + (-2) - (-2 : ℤ).sign < 2 ^ 63) ∧
    (-(2 ^ 63) ≤ ((7 : ℤ) + (-2) - (-2 : ℤ).sign).fdiv (-2)) ∧
    (((7 : ℤ) + (-2) - (-2 : ℤ).sign).fdiv (-2) < 2 ^ 63) ∧
    ceil_divide 7 (-2) = ⌈((7 : ℤ) : ℚ) / ((-2 : ℤ) : ℚ)⌉ :=
  ⟨by decide, by decide, by decide, by decide, by decide, by decide, by decide,
    by decide, by decide,
    c10_ceil_divide_correct 7 (-2) (by decide) (by decide) (by decide)
      (by decide) (by decide) (by decide) (by decide) (by decide) (by decide)⟩

/-- C2: for every input array and every valid window-size tuple (one entry per
axis, each 1 ≤ n ≤ extent), multilook succeeds, the output has the same rank
as the input, and its shape along every axis i is arr.shape[i] // nlooks[i]
(integer floor division). -/
theorem c2_output_shape {α : Type} [DivisionRing α] (arr : DArray α)
    (nl : List ℤ) (hlen : nl.length = arr.ndim)
    (hv : ∀ p ∈ arr.shape.zip nl, 1 ≤ p.2 ∧ p.2 ≤ (p.1 : ℤ)) :
    ∃ ws out, multilook arr (.ints nl) = .ok (ws, out) ∧
      out.ndim = arr.ndim ∧
      out.shape = List.zipWith (· / ·) arr.shape (nl.map Int.toNat) := by
  have hca : checkAxes (arr.shape.zip nl) = .ok () := (checkAxes_ok_iff _).2 hv
  have hval := validate_nlooks_of_checkAxes_ok nl arr hca
  have hnorm : normalize_nlooks_tuple (.ints nl) arr.ndim = .ok nl := by
    simp [normalize_nlooks_tuple, hlen]
  obtain ⟨out, hml, hshape, _⟩ := multilook_ok_spec arr (.ints nl) nl _ hnorm hval
  refine ⟨_, out, hml, ?_, hshape⟩
  show out.shape.length = arr.shape.length
  rw [hshape, List.length_zipWith, List.length_map, hlen]
  exact Nat.min_self _

/-- Witness for C2 on the 4 x 6 array with nlooks = (2, 3). -/
theorem c2_witness :
    (([2, 3] : List ℤ).length = wArr.ndim) ∧
    (∀ p ∈ wArr.shape.zip [2, 3], 1 ≤ p.2 ∧ p.2 ≤ (p.1 : ℤ)) ∧
    ∃ ws out, multilook wArr (.ints [2, 3]) = .ok (ws, out) ∧
      out.ndim = wArr.ndim ∧
      out.shape = List.zipWith (· / ·) wArr.shape
        (([2, 3] : List ℤ).map Int.toNat) :=
  ⟨by decide, by decide, c2_output_shape wArr [2, 3] (by decide) (by decide)⟩

/-- C1: for every array and every valid window-size tuple (1 ≤ n_i ≤
shape_i per axis), multilook succeeds and each output element at multi-index
j is the arithmetic mean of the non-overlapping input block with corner
(j_1*n_1, ..., j_N*n_N) and shape nlooks (∏ nlooks elements); moreover every
multi-index such a block reads lies inside the valid region of extent
out_shape_i * nlooks_i on each axis, so the trailing remainder elements
contribute to no output element. -/
theorem c1_block_mean {α : Type} [DivisionRing α] (arr : DArray α)
    (nl : List ℤ) (hlen : nl.length = arr.ndim)
    (hv : ∀ p ∈ arr.shape.zip nl, 1 ≤ p.2 ∧ p.2 ≤ (p.1 : ℤ)) :
    ∃ ws out, multilook arr (.ints nl) = .ok (ws, out) ∧
      out.shape = List.zipWith (· / ·) arr.shape (nl.map Int.toNat) ∧
      (∀ j, inRange out.shape j →
        out.data j = blockMean arr (nl.map Int.toNat) j) ∧
      (∀ j, inRange out.shape j → ∀ k ∈ allIndices (nl.map Int.toNat),
        inRange (List.zipWith (· * ·) out.shape (nl.map Int.toNat))
          (blockIdx j (nl.map Int.toNat) k)) := by
  have hca : checkAxes (arr.shape.zip nl) = .ok () := (checkAxes_ok_iff _).2 hv
  have hval := validate_nlooks_of_checkAxes_ok nl arr hca
  have hnorm : normalize_nlooks_tuple (.ints nl) arr.ndim = .ok nl := by
    simp [normalize_nlooks_tuple, hlen]
  obtain ⟨out, hml, hshape, hdata⟩ :=
    multilook_ok_spec arr (.ints nl) nl _ hnorm hval
  refine ⟨_, out, hml, hshape, hdata, ?_⟩
  intro j hj k hk
  set nlN := nl.map Int.toNat with hnlN
  obtain ⟨hjlen, hjin⟩ := hj
  obtain ⟨hklen, hkin⟩ := (mem_allIndices nlN k).1 hk
  rw [hshape] at hjlen hjin ⊢
  have hlenN : nlN.length = arr.shape.length := by
    rw [hnlN, List.length_map]
    exact hlen
  have hoLen : (List.zipWith (· / ·) arr.shape nlN).length = nlN.length := by
    rw [List.length_zipWith, hlenN, Nat.min_self]
  exact blockIdx_inRange j _ nlN k hjlen hklen hoLen hjin hkin

/-- Witness for C1 on the 4 x 6 array with nlooks = (2, 3). -/
theorem c1_witness :
    (([2, 3] : List ℤ).length = wArr.ndim) ∧
    (∀ p ∈ wArr.shape.zip [2, 3], 1 ≤ p.2 ∧ p.2 ≤ (p.1 : ℤ)) ∧
    ∃ ws out, multilook wArr (.ints [2, 3]) = .ok (ws, out) ∧
      out.shape = List.zipWith (· / ·) wArr.shape
        (([2, 3] : List ℤ).map Int.toNat) ∧
      (∀ j, inRange out.shape j →
        out.data j = blockMean wArr (([2, 3] : List ℤ).map Int.toNat) j) ∧
      (∀ j, inRange out.shape j →
        ∀ k ∈ allIndices (([2, 3] : List ℤ).map Int.toNat),
        inRange (List.zipWith (· * ·) out.shape (([2, 3] : List ℤ).map Int.toNat))
          (blockIdx j (([2, 3] : List ℤ).map Int.toNat) k)) :=
  ⟨by decide, by decide, c1_block_mean wArr [2, 3] (by decide) (by decide)⟩

/-- C8: once normalization and validation pass (nlooks has one entry per axis
and validate_nlooks returns the warning list), the remaining steps of
multilook are total — the call returns a result and raises no error — and in
particular the interleave call inside multilook receives two sequences of
equal length (out_shape and nlooks), so interleave's ValueError branch is
unreachable from multilook. -/
theorem c8_total_after_validation {α : Type} [DivisionRing α] (arr : DArray α)
    (nl : List ℤ) (ws : List MlWarning)
    (hlen : nl.length = arr.ndim)
    (hval : validate_nlooks nl arr = .ok ws) :
    (∃ out, multilook arr (.ints nl) = .ok (ws, out)) ∧
      interleave (List.zipWith (· / ·) arr.shape (nl.map Int.toNat))
          (nl.map Int.toNat)
        = .ok (interleaveList
            (List.zipWith (· / ·) arr.shape (nl.map Int.toNat))
            (nl.map Int.toNat)) := by
  have hnorm : normalize_nlooks_tuple (.ints nl) arr.ndim = .ok nl := by
    simp [normalize_nlooks_tuple, hlen]
  obtain ⟨out, hml, _, _⟩ := multilook_ok_spec arr (.ints nl) nl ws hnorm hval
  refine ⟨⟨out, hml⟩, ?_⟩
  apply interleave_eq_interleaveList
  have hlenN : (nl.map Int.toNat).length = arr.shape.length := by
    rw [List.length_map]
    exact hlen
  rw [List.length_zipWith, hlenN, Nat.min_self]

/-- Witness for C8 on the 4 x 6 array with nlooks = (2, 3): validation passes
with the even-window warning, and the call returns a result. -/
theorem c8_witness :
    (([2, 3] : List ℤ).length = wArr.ndim) ∧
    validate_nlooks [2, 3] wArr = .ok [MlWarning.evenNlooks] ∧
    ((∃ out, multilook wArr (.ints [2, 3]) = .ok ([MlWarning.evenNlooks], out)) ∧
      interleave
          (List.zipWith (· / ·) wArr.shape (([2, 3] : List ℤ).map Int.toNat))
          (([2, 3] : List ℤ).map Int.toNat)
        = .ok (interleaveList
            (List.zipWith (· / ·) wArr.shape (([2, 3] : List ℤ).map Int.toNat))
            (([2, 3] : List ℤ).map Int.toNat))) :=
  ⟨by decide, by rfl,
    c8_total_after_validation wArr [2, 3] [MlWarning.evenNlooks] (by decide)
      (by rfl)⟩

/-- C3: validate_nlooks checks axis pairs (m, n) = (arr.shape[i], nlooks[i])
in axis order over the zipped length: with every pair before some axis valid
and (m, n) the first offending pair, it raises ValueError — message "number
of looks must be >= 1" when n < 1 (that check taking precedence on the same
axis), else "number of looks should not exceed array shape" when n > m — and
multilook (when nlooks normalizes to one entry per axis) propagates the same
error, so no result is produced. -/
theorem c3_validate_first_error {α : Type} [DivisionRing α] (arr : DArray α)
    (nl : List ℤ) (pre : List (Nat × ℤ)) (m : Nat) (n : ℤ)
    (post : List (Nat × ℤ))
    (hsplit : arr.shape.zip nl = pre ++ (m, n) :: post)
    (hpre : ∀ p ∈ pre, 1 ≤ p.2 ∧ p.2 ≤ (p.1 : ℤ))
    (hbad : n < 1 ∨ (m : ℤ) < n) :
    validate_nlooks nl arr
      = .error (if n < 1 then .nlooksTooSmall else .nlooksExceedsShape) ∧
    MlError.nlooksTooSmall.message = "number of looks must be >= 1" ∧
    MlError.nlooksExceedsShape.message
      = "number of looks should not exceed array shape" ∧
    (nl.length = arr.ndim →
      multilook arr (.ints nl)
        = .error (if n < 1 then .nlooksTooSmall else .nlooksExceedsShape)) := by
  have hck : checkAxes (arr.shape.zip nl)
      = .error (if n < 1 then .nlooksTooSmall else .nlooksExceedsShape) := by
    rw [hsplit]
    exact checkAxes_first_error pre m n post hpre hbad
  have hvalErr := validate_nlooks_of_checkAxes_error nl arr _ hck
  refine ⟨hvalErr, rfl, rfl, ?_⟩
  intro hlen
  have hnorm : normalize_nlooks_tuple (.ints nl) arr.ndim = .ok nl := by
    simp [normalize_nlooks_tuple, hlen]
  show (normalize_nlooks_tuple (.ints nl) arr.ndim) >>= _ = _
  rw [hnorm, except_bind_ok]
  show (validate_nlooks nl arr) >>= _ = _
  rw [hvalErr]
  rfl

/-- Witness for C3 on the 4 x 6 array with nlooks = (7, 0): the first axis
already offends (7 > 4), so the oversized-window error fires even though the
second axis has n = 0 < 1. -/
theorem c3_witness :
    (wArr.shape.zip [7, 0] = [] ++ ((4 : Nat), (7 : ℤ)) :: [((6 : Nat), (0 : ℤ))]) ∧
    (∀ p ∈ ([] : List (Nat × ℤ)), 1 ≤ p.2 ∧ p.2 ≤ (p.1 : ℤ)) ∧
    ((7 : ℤ) < 1 ∨ ((4 : Nat) : ℤ) < 7) ∧
    (validate_nlooks [7, 0] wArr
        = .error (if (7 : ℤ) < 1 then .nlooksTooSmall else .nlooksExceedsShape) ∧
      MlError.nlooksTooSmall.message = "number of looks must be >= 1" ∧
      MlError.nlooksExceedsShape.message
        = "number of looks should not exceed array shape" ∧
      (([7, 0] : List ℤ).length = wArr.ndim →
        multilook wArr (.ints [7, 0])
          = .error (if (7 : ℤ) < 1 then .nlooksTooSmall else .nlooksExceedsShape))) :=
  ⟨by decide, by decide, by decide,
    c3_validate_first_error wArr [7, 0] [] 4 7 [(6, 0)] (by decide) (by decide)
      (by decide)⟩

/-- C5: for window tuples that pass the per-axis fatal checks,
validate_nlooks succeeds without aborting; its warning list contains the
even-window warning iff at least one component of nlooks is even, and the
excluded-remainder warning iff at least one zipped axis extent is not an
integer multiple of its window size; both can be present on the same call,
and the list is empty when every window is odd and every extent divides
evenly. -/
theorem c5_warnings {α : Type} (arr : DArray α) (nl : List ℤ)
    (hpass : checkAxes (arr.shape.zip nl) = .ok ()) :
    ∃ ws, validate_nlooks nl arr = .ok ws ∧
      (MlWarning.evenNlooks ∈ ws ↔ ∃ x ∈ nl, Even x) ∧
      (MlWarning.remainderExcluded ∈ ws ↔
        ∃ p ∈ arr.shape.zip nl, ¬ (p.1 : ℤ) % p.2 = 0) ∧
      ((∀ x ∈ nl, ¬ Even x) ∧ (∀ p ∈ arr.shape.zip nl, (p.1 : ℤ) % p.2 = 0) →
        ws = []) := by
  have hok := (checkAxes_ok_iff _).1 hpass
  have hisev : ∀ x : ℤ, iseven x = true ↔ Even x := by
    intro x
    rw [iseven, beq_iff_eq, Int.fmod_eq_emod x (by norm_num), Int.even_iff]
  have heq1 : nl.any iseven = true ↔ ∃ x ∈ nl, Even x := by
    rw [List.any_eq_true]
    constructor
    · rintro ⟨x, hx, hev⟩
      exact ⟨x, hx, (hisev x).1 hev⟩
    · rintro ⟨x, hx, hev⟩
      exact ⟨x, hx, (hisev x).2 hev⟩
  have heq2 : ((arr.shape.zip nl).any fun p => (p.1 : ℤ).fmod p.2 != 0) = true
      ↔ ∃ p ∈ arr.shape.zip nl, ¬ (p.1 : ℤ) % p.2 = 0 := by
    rw [List.any_eq_true]
    constructor
    · rintro ⟨p, hp, hne⟩
      refine ⟨p, hp, ?_⟩
      have h1 := (hok p hp).1
      rw [bne_iff_ne, ne_eq, Int.fmod_eq_emod _ (by omega)] at hne
      exact hne
    · rintro ⟨p, hp, hne⟩
      refine ⟨p, hp, ?_⟩
      have h1 := (hok p hp).1
      rw [bne_iff_ne, ne_eq, Int.fmod_eq_emod _ (by omega)]
      exact hne
  refine ⟨_, validate_nlooks_of_checkAxes_ok nl arr hpass, ?_, ?_, ?_⟩
  · rw [← heq1]
    by_cases hc1 : nl.any iseven <;>
      by_cases hc2 :
          ((arr.shape.zip nl).any fun p => (p.1 : ℤ).fmod p.2 != 0) <;>
        simp [hc1, hc2]
  · rw [← heq2]
    by_cases hc1 : nl.any iseven <;>
      by_cases hc2 :
          ((arr.shape.zip nl).any fun p => (p.1 : ℤ).fmod p.2 != 0) <;>
        simp [hc1, hc2]
  · rintro ⟨ha, hb⟩
    have hc1 : ¬ nl.any iseven = true := by
      intro h
      obtain ⟨x, hx, hev⟩ := heq1.1 h
      exact ha x hx hev
    have hc2 :
        ¬ ((arr.shape.zip nl).any fun p => (p.1 : ℤ).fmod p.2 != 0) = true := by
      intro h
      obtain ⟨p, hp, hne⟩ := heq2.1 h
      exact hne (hb p hp)
    simp [hc1, hc2]

/-- Witness for C5 on the 4 x 6 array with nlooks = (2, 5): the even-window
warning fires (2 is even) and the remainder warning fires (6 is not a
multiple of 5), yet validation succeeds. -/
theorem c5_witness :
    checkAxes (wArr.shape.zip [2, 5]) = .ok () ∧
    ∃ ws, validate_nlooks [2, 5] wArr = .ok ws ∧
      (MlWarning.evenNlooks ∈ ws ↔ ∃ x ∈ ([2, 5] : List ℤ), Even x) ∧
      (MlWarning.remainderExcluded ∈ ws ↔
        ∃ p ∈ wArr.shape.zip [2, 5], ¬ (p.1 : ℤ) % p.2 = 0) ∧
      ((∀ x ∈ ([2, 5] : List ℤ), ¬ Even x) ∧
        (∀ p ∈ wArr.shape.zip [2, 5], (p.1 : ℤ) % p.2 = 0) → ws = []) :=
  ⟨by rfl, c5_warnings wArr [2, 5] (by rfl)⟩

/-- C6: a scalar window-size specification broadcasts to every axis:
multilook(arr, n) equals multilook(arr, (n,)*arr.ndim), and
normalize_nlooks_tuple on a scalar returns that integer repeated ndim
times. -/
theorem c6_scalar_broadcast {α : Type} [DivisionRing α] (arr : DArray α)
    (n : ℤ) (ndim : Nat) :
    multilook arr (.scalar n)
        = multilook arr (.ints (List.replicate arr.ndim n)) ∧
      normalize_nlooks_tuple (.scalar n) ndim = .ok (List.replicate ndim n) := by
  constructor
  · unfold multilook
    have h2 : normalize_nlooks_tuple (.ints (List.replicate arr.ndim n)) arr.ndim
        = .ok (List.replicate arr.ndim n) := by
      simp [normalize_nlooks_tuple]
    rw [h2]
    rfl
  · rfl

/-- C7: for an iterable window-size specification, normalize_nlooks_tuple
fails iff the number of elements differs from ndim; the error is a
ValueError carrying both the provided length and the required rank, and its
message states both; when the lengths match it returns the element-wise
conversion, a tuple of length ndim. -/
theorem c7_normalize_iterable (ns : List ℤ) (ndim : Nat) :
    ((∃ e, normalize_nlooks_tuple (.ints ns) ndim = .error e) ↔
      ns.length ≠ ndim) ∧
    (ns.length ≠ ndim →
      normalize_nlooks_tuple (.ints ns) ndim
          = .error (.lengthMismatch ns.length ndim) ∧
        (MlError.lengthMismatch ns.length ndim).message
          = "length mismatch: length of nlooks (" ++ toString ns.length ++
              ") must match input array rank (" ++ toString ndim ++ ")") ∧
    (ns.length = ndim →
      normalize_nlooks_tuple (.ints ns) ndim = .ok ns ∧ ns.length = ndim) := by
  by_cases h : ns.length = ndim
  · have hok : normalize_nlooks_tuple (.ints ns) ndim = .ok ns := by
      simp [normalize_nlooks_tuple, h]
    refine ⟨?_, fun hne => absurd h hne, fun _ => ⟨hok, h⟩⟩
    constructor
    · rintro ⟨e, he⟩
      rw [hok] at he
      exact absurd he (by simp)
    · intro hne
      exact absurd h hne
  · have herr : normalize_nlooks_tuple (.ints ns) ndim
        = .error (.lengthMismatch ns.length ndim) := by
      simp [normalize_nlooks_tuple, h]
    refine ⟨⟨fun _ => h, fun _ => ⟨_, herr⟩⟩, fun _ => ⟨herr, rfl⟩,
      fun he => absurd he h⟩

/-- C4 counterexample: for the empty 1-D canonical array (shape [0]) and
k = [2], the tiled array also has shape [0], and multilook(tiled, k) raises
the oversized-window ValueError (2 > 0) instead of reconstructing the
canonical array, so the round-trip law fails for empty canonical arrays. -/
theorem c4_counterexample :
    multilook (tile wEmpty [2]) (.ints [2]) = .error .nlooksExceedsShape := by
  rfl

/-- C4 (amended): the tiling round-trip law restricted to canonical arrays
whose axis extents are all positive — if tiled repeats each element of c
k_i times along axis i, then multilook(tiled, nlooks = k) succeeds and
reconstructs c exactly (the arithmetic is exact in any characteristic-zero
division ring, covering the real and complex cases). -/
theorem c4_tile_roundtrip {α : Type} [DivisionRing α] [CharZero α]
    (c : DArray α) (k : List Nat)
    (hlen : k.length = c.shape.length)
    (hkpos : ∀ x ∈ k, 1 ≤ x) (hcpos : ∀ m ∈ c.shape, 1 ≤ m) :
    ∃ ws out, multilook (tile c k) (.ints (k.map Int.ofNat)) = .ok (ws, out) ∧
      out.shape = c.shape ∧
      ∀ j, inRange c.shape j → out.data j = c.data j := by
  set T := tile c k with hT
  have hTshape : T.shape = List.zipWith (· * ·) c.shape k := rfl
  have hTdata : T.data = fun idx => c.data (List.zipWith (· / ·) idx k) := rfl
  have hTlen : T.shape.length = c.shape.length := by
    rw [hTshape, List.length_zipWith, hlen, Nat.min_self]
  have hnl_len : (k.map Int.ofNat).length = T.ndim := by
    rw [List.length_map, DArray.ndim, hTlen]
    exact hlen
  have hca : checkAxes (T.shape.zip (k.map Int.ofNat)) = .ok () := by
    apply (checkAxes_ok_iff _).2
    rw [hTshape]
    exact checkAxes_tile c.shape k hkpos hcpos
  have hval := validate_nlooks_of_checkAxes_ok (k.map Int.ofNat) T hca
  have hnorm : normalize_nlooks_tuple (.ints (k.map Int.ofNat)) T.ndim
      = .ok (k.map Int.ofNat) := by
    simp [normalize_nlooks_tuple, hnl_len]
  obtain ⟨out, hml, hshape, hdata⟩ :=
    multilook_ok_spec T (.ints (k.map Int.ofNat)) (k.map Int.ofNat) _ hnorm hval
  have hback : (k.map Int.ofNat).map Int.toNat = k := by
    simp [List.map_map, Function.comp_def]
  rw [hback] at hshape hdata
  have hshape' : out.shape = c.shape := by
    rw [hshape, hTshape]
    exact zipWith_mul_div_cancel c.shape k hlen.symm hkpos
  refine ⟨_, out, hml, hshape', ?_⟩
  intro j hj
  have hj' : inRange out.shape j := by
    rw [hshape']
    exact hj
  rw [hdata j hj', blockMean]
  have hjlen : j.length = c.shape.length := hj.1
  have hconst : ∀ r ∈ allIndices k, T.data (blockIdx j k r) = c.data j := by
    intro r hr
    obtain ⟨hrlen, hrin⟩ := (mem_allIndices k r).1 hr
    rw [hTdata]
    show c.data (List.zipWith (· / ·) (blockIdx j k r) k) = c.data j
    rw [blockIdx_div j k r (by omega) hrlen hkpos hrin]
  rw [List.map_congr_left hconst, List.map_const', List.sum_replicate,
    length_allIndices, nsmul_eq_mul]
  have hkprod : (k.prod : α) ≠ 0 := by
    have hp : 0 < k.prod := List.prod_pos (fun x hx => hkpos x hx)
    exact_mod_cast Nat.pos_iff_ne_zero.mp hp
  rw [(Nat.cast_commute k.prod (c.data j)).eq, mul_div_cancel_right₀ _ hkprod]

/-- Witness for the amended C4 on the length-2 canonical array with k = [2]. -/
theorem c4_witness :
    (([2] : List Nat).length = wCanon.shape.length) ∧
    (∀ x ∈ ([2] : List Nat), 1 ≤ x) ∧
    (∀ m ∈ wCanon.shape, 1 ≤ m) ∧
    ∃ ws out,
      multilook (tile wCanon [2]) (.ints (([2] : List Nat).map Int.ofNat))
          = .ok (ws, out) ∧
        out.shape = wCanon.shape ∧
        ∀ j, inRange wCanon.shape j → out.data j = wCanon.data j :=
  ⟨by decide, by decide, by decide,
    c4_tile_roundtrip wCanon [2] (by decide) (by decide) (by decide)⟩

/-- C9: determinism — multilook's outcome depends only on its arguments'
contents: for two input arrays with identical shape and identical element
values at every in-range multi-index, and the same window-size
specification, the two calls yield the same error, or else results with the
same warning list, the same shape, and the same value at every in-range
multi-index; no state outside the arguments is consulted. -/
theorem c9_deterministic {α : Type} [DivisionRing α] (a b : DArray α)
    (nls : IntOrInts) (hs : a.shape = b.shape)
    (hd : ∀ idx, inRange a.shape idx → a.data idx = b.data idx) :
    (∀ e, multilook a nls = .error e → multilook b nls = .error e) ∧
    (∀ ws out, multilook a nls = .ok (ws, out) →
      ∃ outb, multilook b nls = .ok (ws, outb) ∧ outb.shape = out.shape ∧
        ∀ j, inRange out.shape j → outb.data j = out.data j) := by
  have hndim : a.ndim = b.ndim := by
    rw [DArray.ndim, DArray.ndim, hs]
  have hval_eq : ∀ nl : List ℤ, validate_nlooks nl a = validate_nlooks nl b := by
    intro nl
    rw [validate_nlooks_def, validate_nlooks_def, hs]
  cases hn : normalize_nlooks_tuple nls a.ndim with
  | error e0 =>
    have hmla : multilook a nls = .error e0 := by
      show (normalize_nlooks_tuple nls a.ndim) >>= _ = _
      rw [hn]
      rfl
    have hmlb : multilook b nls = .error e0 := by
      show (normalize_nlooks_tuple nls b.ndim) >>= _ = _
      rw [← hndim, hn]
      rfl
    constructor
    · intro e he
      rw [hmla] at he
      rw [hmlb]
      exact he
    · intro ws out h
      rw [hmla] at h
      exact absurd h (by simp)
  | ok nl =>
    cases hv : validate_nlooks nl a with
    | error e0 =>
      have hmla : multilook a nls = .error e0 := by
        show (normalize_nlooks_tuple nls a.ndim) >>= _ = _
        rw [hn, except_bind_ok]
        show (validate_nlooks nl a) >>= _ = _
        rw [hv]
        rfl
      have hmlb : multilook b nls = .error e0 := by
        show (normalize_nlooks_tuple nls b.ndim) >>= _ = _
        rw [← hndim, hn, except_bind_ok]
        show (validate_nlooks nl b) >>= _ = _
        rw [← hval_eq nl, hv]
        rfl
      constructor
      · intro e he
        rw [hmla] at he
        rw [hmlb]
        exact he
      · intro ws out h
        rw [hmla] at h
        exact absurd h (by simp)
    | ok ws0 =>
      have hnb : normalize_nlooks_tuple nls b.ndim = .ok nl := by
        rw [← hndim]
        exact hn
      have hvb : validate_nlooks nl b = .ok ws0 := by
        rw [← hval_eq nl]
        exact hv
      obtain ⟨outA, hmlA, hshA, hdatA⟩ := multilook_ok_spec a nls nl ws0 hn hv
      obtain ⟨outB, hmlB, hshB, hdatB⟩ := multilook_ok_spec b nls nl ws0 hnb hvb
      have hshAB : outB.shape = outA.shape := by
        rw [hshA, hshB, hs]
      constructor
      · intro e he
        rw [hmlA] at he
        exact absurd he (by simp)
      · intro ws out h
        rw [hmlA] at h
        obtain ⟨rfl, rfl⟩ : ws0 = ws ∧ outA = out := by
          simpa using h
        refine ⟨outB, hmlB, hshAB, ?_⟩
        intro j hj
        have hjB : inRange outB.shape j := by
          rw [hshAB]
          exact hj
        rw [hdatA j hj, hdatB j hjB]
        set nlN := nl.map Int.toNat with hnlN
        have hlen : nl.length = a.ndim := normalize_ok_length nls a.ndim nl hn
        have hlenN : nlN.length = a.shape.length := by
          rw [hnlN, List.length_map]
          exact hlen
        have hidx : ∀ k ∈ allIndices nlN, inRange a.shape (blockIdx j nlN k) := by
          intro k hk
          obtain ⟨hklen, hkin⟩ := (mem_allIndices nlN k).1 hk
          obtain ⟨hjlen, hjin⟩ := hj
          rw [hshA] at hjlen hjin
          have hoLen : (List.zipWith (· / ·) a.shape nlN).length = nlN.length := by
            rw [List.length_zipWith, hlenN, Nat.min_self]
          have hblock := blockIdx_inRange j _ nlN k hjlen hklen hoLen hjin hkin
          apply inRange_mono _ _ _ ?_ ?_ hblock
          · rw [List.length_zipWith, hoLen, Nat.min_self]
            exact hlenN
          · exact zipWith_div_mul_le a.shape nlN
        exact (blockMean_congr a b nlN j hd hidx).symm

/-- Witness for C9 with both arguments the 4 x 6 array and nlooks = (2, 3). -/
theorem c9_witness :
    (wArr.shape = wArr.shape) ∧
    (∀ idx, inRange wArr.shape idx → wArr.data idx = wArr.data idx) ∧
    ((∀ e, multilook wArr (.ints [2, 3]) = .error e →
        multilook wArr (.ints [2, 3]) = .error e) ∧
      (∀ ws out, multilook wArr (.ints [2, 3]) = .ok (ws, out) →
        ∃ outb, multilook wArr (.ints [2, 3]) = .ok (ws, outb) ∧
          outb.shape = out.shape ∧
          ∀ j, inRange out.shape j → outb.data j = out.data j)) :=
  ⟨rfl, fun _ _ => rfl,
    c9_deterministic wArr wArr (.ints [2, 3]) rfl (fun _ _ => rfl)⟩

end Tophu
